import Mathlib

/-!
Verification of the bencode codec / torrent-metadata extractor
(codecrafters-bittorrent-rust, src/main.rs).

Byte buffers are modelled as `List Nat` (each element a byte value).
Rust strings are modelled by their UTF-8 byte sequences.
-/

namespace BT

/-- Bytes of an ASCII string literal (every literal used here is ASCII,
so the UTF-8 bytes coincide with the character codes). -/
def asciiB (s : String): List Nat := s.data.map Char.toNat

/-- ASCII decimal digit test, as in Rust `char::is_digit(10)` applied to a
single-byte character. -/
def isDigit (b : Nat) : Bool := 48 ≤ b && b ≤ 57

/-- Big-endian decimal digits of a natural number (values 0..9, most
significant first); `[0]` for zero. -/
def natDigits (n : Nat) : List Nat :=
  if _h : n < 10 then [n] else natDigits (n / 10) ++ [n % 10]
termination_by n
decreasing_by exact Nat.div_lt_self (by omega) (by omega)

/-- Shortest decimal ASCII rendering of a natural number. -/
def toDec (n : Nat) : List Nat := (natDigits n).map (· + 48)

/-- Value of a big-endian list of ASCII digit bytes. -/
def parseNat (l : List Nat) : Nat := l.foldl (fun a d => a * 10 + (d - 48)) 0

/-- Valid decimal-length text per the decoder: nonempty, all digits, and no
leading zero unless the text is exactly "0". -/
def lengthTextValid : List Nat → Bool
  | [] => false
  | d :: ds =>
    if ds.isEmpty then isDigit d
    else isDigit d && d ≠ 48 && ds.all isDigit

/-- Valid integer text per the decoder: optional single leading minus sign,
then digits, no leading zero unless exactly "0", and no "-0". -/
def intTextValid : List Nat → Bool
  | [] => false
  | c :: ds =>
    if c = 45 then
      match ds with
      | [] => false
      | d :: _ => decide (d ≠ 48) && ds.all isDigit
    else lengthTextValid (c :: ds)

/-- Integer value of a valid integer text. -/
def intVal : List Nat → Int
  | [] => 0
  | c :: ds => if c = 45 then -(parseNat ds : Int) else (parseNat (c :: ds) : Int)

/-- Shortest decimal ASCII rendering of an integer (minus sign for
negatives). -/
def intBytes (i : Int) : List Nat :=
  if i < 0 then 45 :: toDec i.natAbs else toDec i.toNat

/-! ### The bencode value model

Modelled from the spec: the codec actually used by `main` is the external
`serde_bencode` crate, whose source is not part of this repository; only its
call sites (`decode_bencoded_value_serde_bencode`, `serde_bencode::to_bytes`
in `main`) are.  The spec describes the codec as a closed four-case variant
type with a recursive single-pass decoder and a canonical (key-sorted)
encoder.  Dictionaries are kept as association lists ordered strictly
ascending by raw key bytes: this is the canonical representative of the
unordered `HashMap` used by the library, matching the spec's order-insensitive
dictionary equality. -/
inductive Value where
  | str (b : List Nat)
  | int (i : Int)
  | list (l : List Value)
  | dict (d : List (List Nat × Value))

/-- Decode-time error kinds, from the spec's error taxonomy. -/
inductive DecodeError where
  | unrecognizedTag
  | truncatedString
  | malformedInteger
  | unterminatedInteger
  | unterminatedList
  | unterminatedDict
  | nonStringDictKey
  | missingDictValue
  | duplicateDictKey
  | trailingBytes
deriving DecidableEq

/-- Insert an entry into a key-sorted assoc list, keeping it sorted
(strictly ascending in raw byte order); a repeated key is a
`duplicateDictKey` error per the spec. -/
def insertPair (p : List Nat × Value) :
    List (List Nat × Value) → Except DecodeError (List (List Nat × Value))
  | [] => .ok [p]
  | q :: qs =>
    if p.1 = q.1 then .error .duplicateDictKey
    else if p.1 < q.1 then .ok (p :: q :: qs)
    else
      match insertPair p qs with
      | .error e => .error e
      | .ok l => .ok (q :: l)

/-- Insertion step of the canonical encoder's key sort. -/
def insSorted (p : List Nat × Value) :
    List (List Nat × Value) → List (List Nat × Value)
  | [] => [p]
  | q :: qs => if p.1 < q.1 then p :: q :: qs else q :: insSorted p qs

/-- Sort dictionary entries ascending by raw key bytes (insertion sort). -/
def sortPairs (l : List (List Nat × Value)) : List (List Nat × Value) :=
  l.foldr insSorted []

theorem insSorted_perm (p : List Nat × Value) (l : List (List Nat × Value)) :
    List.Perm (insSorted p l) (p :: l) := by
  induction l with
  | nil => simp [insSorted]
  | cons q qs ih =>
    simp only [insSorted]
    split
    · exact List.Perm.refl _
    · exact (ih.cons q).trans (List.Perm.swap p q qs)

theorem sortPairs_perm (l : List (List Nat × Value)) : List.Perm (sortPairs l) l := by
  induction l with
  | nil => simp [sortPairs]
  | cons p t ih =>
    simpa [sortPairs] using (insSorted_perm p (sortPairs t)).trans (ih.cons p)

theorem sizeOf_eq_of_perm {l l' : List (List Nat × Value)} (h : List.Perm l l') :
    sizeOf l = sizeOf l' := by
  induction h with
  | nil => rfl
  | cons x _ ih => simp only [List.cons.sizeOf_spec]; omega
  | swap x y l => simp only [List.cons.sizeOf_spec]; omega
  | trans _ _ ih1 ih2 => omega

theorem sizeOf_sortPairs (d : List (List Nat × Value)) :
    sizeOf (sortPairs d) = sizeOf d :=
  sizeOf_eq_of_perm (sortPairs_perm d)

/-- Head byte of a bencoded string: decimal length, then a colon, then the
raw payload bytes. -/
def encStr (b : List Nat) : List Nat := toDec b.length ++ 58 :: b

mutual

/-- Canonical bencode encoder, modelled from the spec: strings as
`len:payload`, integers as `i..e` in shortest decimal form, lists in
original order, dictionaries with entries sorted ascending by raw key
bytes regardless of stored order. -/
def encodeValue : Value → List Nat
  | .str b => encStr b
  | .int i => 105 :: intBytes i ++ [101]
  | .list l => 108 :: encodeList l ++ [101]
  | .dict d => 100 :: encodeEntries (sortPairs d) ++ [101]
termination_by v => sizeOf v
decreasing_by all_goals (simp [sizeOf_sortPairs]) <;> omega

def encodeList : List Value → List Nat
  | [] => []
  | v :: t => encodeValue v ++ encodeList t
termination_by l => sizeOf l
decreasing_by all_goals (simp [sizeOf_sortPairs]) <;> omega

def encodeEntries : List (List Nat × Value) → List Nat
  | [] => []
  | (k, v) :: t => encStr k ++ encodeValue v ++ encodeEntries t
termination_by l => sizeOf l
decreasing_by all_goals (simp [sizeOf_sortPairs]) <;> omega

end

/-- String branch of the decoder (dispatch byte is an ASCII digit): scan to
the first colon, validate and parse the decimal length, then consume that
many payload bytes; `truncatedString` if fewer remain than declared. -/
def decodeStr (s : List Nat) : Except DecodeError (Value × List Nat) :=
  let t := s.takeWhile (fun b => b != 58)
  match s.dropWhile (fun b => b != 58) with
  | [] => .error .truncatedString
  | _ :: afterColon =>
    if lengthTextValid t then
      let n := parseNat t
      if afterColon.length < n then .error .truncatedString
      else .ok (.str (afterColon.take n), afterColon.drop n)
    else .error .malformedInteger

/-- Integer branch of the decoder (after the leading `i`): scan to the next
`e` (`unterminatedInteger` if none), validate the enclosed text, and parse
it; violations are `malformedInteger`. -/
def decodeInt (s : List Nat) : Except DecodeError (Value × List Nat) :=
  let t := s.takeWhile (fun b => b != 101)
  match s.dropWhile (fun b => b != 101) with
  | [] => .error .unterminatedInteger
  | _ :: after =>
    if intTextValid t then .ok (.int (intVal t), after)
    else .error .malformedInteger

mutual

/-- Recursive-descent bencode decoder, modelled from the spec.  `fuel` only
bounds recursion depth for the termination checker; `2 * length + 1` always
suffices (every step consumes input or descends into it). -/
def decodeValue : Nat → List Nat → Option (Except DecodeError (Value × List Nat))
  | 0, _ => none
  | fuel + 1, s =>
    match s with
    | [] => some (.error .unrecognizedTag)
    | c :: rest =>
      if isDigit c then some (decodeStr (c :: rest))
      else if c = 105 then some (decodeInt rest)
      else if c = 108 then
        match decodeListAux fuel rest with
        | none => none
        | some (.error e) => some (.error e)
        | some (.ok (l, r)) => some (.ok (.list l, r))
      else if c = 100 then
        match decodeDictAux fuel rest with
        | none => none
        | some (.error e) => some (.error e)
        | some (.ok (d, r)) => some (.ok (.dict d, r))
      else some (.error .unrecognizedTag)

/-- List-body loop: decode elements until the terminating `e`. -/
def decodeListAux : Nat → List Nat → Option (Except DecodeError (List Value × List Nat))
  | 0, _ => none
  | fuel + 1, s =>
    match s with
    | [] => some (.error .unterminatedList)
    | c :: rest =>
      if c = 101 then some (.ok ([], rest))
      else
        match decodeValue fuel (c :: rest) with
        | none => none
        | some (.error e) => some (.error e)
        | some (.ok (v, r)) =>
          match decodeListAux fuel r with
          | none => none
          | some (.error e) => some (.error e)
          | some (.ok (l, r2)) => some (.ok (v :: l, r2))

/-- Dict-body loop: decode a key (must be a string), then a value, insert
the pair (repeated key is an error), until the terminating `e`. -/
def decodeDictAux : Nat → List Nat →
    Option (Except DecodeError (List (List Nat × Value) × List Nat))
  | 0, _ => none
  | fuel + 1, s =>
    match s with
    | [] => some (.error .unterminatedDict)
    | c :: rest =>
      if c = 101 then some (.ok ([], rest))
      else
        match decodeValue fuel (c :: rest) with
        | none => none
        | some (.error e) => some (.error e)
        | some (.ok (.str k, r)) =>
          match r.head? with
          | none => some (.error .unterminatedDict)
          | some c2 =>
            if c2 = 101 then some (.error .missingDictValue)
            else
              match decodeValue fuel r with
              | none => none
              | some (.error e) => some (.error e)
              | some (.ok (v, r3)) =>
                match decodeDictAux fuel r3 with
                | none => none
                | some (.error e) => some (.error e)
                | some (.ok (entries, r4)) =>
                  match insertPair (k, v) entries with
                  | .error e => some (.error e)
                  | .ok entries2 => some (.ok (entries2, r4))
        | some (.ok (_, _)) => some (.error .nonStringDictKey)

end

/-- Whole-buffer decode: exactly one value, no trailing bytes.  The fuel
`2 * length + 1` always suffices, so the `none` fallback is unreachable. -/
def decode (s : List Nat) : Except DecodeError Value :=
  match decodeValue (2 * s.length + 1) s with
  | none => .error .unrecognizedTag
  | some (.error e) => .error e
  | some (.ok (v, r)) => if r.isEmpty then .ok v else .error .trailingBytes

example : decode (asciiB "4:spam") = .ok (.str (asciiB "spam")) := rfl
example : decode (asciiB "i52e") = .ok (.int 52) := rfl
example : decode (asciiB "i-52e") = .ok (.int (-52)) := rfl
example : decode (asciiB "le") = .ok (.list []) := rfl
example : decode (asciiB "l4:spam4:eggse") =
    .ok (.list [.str (asciiB "spam"), .str (asciiB "eggs")]) := rfl
example : decode (asciiB "d3:cow3:moo4:spam4:eggse") =
    .ok (.dict [(asciiB "cow", .str (asciiB "moo")),
                (asciiB "spam", .str (asciiB "eggs"))]) := rfl
example : decode (asciiB "5:hi") = .error .truncatedString := rfl
example : decode (asciiB "i52") = .error .unterminatedInteger := rfl

/-! ### UTF-8 validity

Models the success condition of Rust `String::from_utf8`: well-formed UTF-8
(1- to 4-byte sequences, no overlong forms, no surrogates, max U+10FFFF). -/

/-- UTF-8 continuation byte (10xxxxxx). -/
def isCont (b : Nat) : Bool := 128 ≤ b && b ≤ 191

/-- Strict UTF-8 validation of a byte sequence. -/
def validUtf8 : List Nat → Bool
  | [] => true
  | b :: rest =>
    if b < 128 then validUtf8 rest
    else if b < 194 then false
    else if b < 224 then
      match rest with
      | c1 :: r => isCont c1 && validUtf8 r
      | [] => false
    else if b = 224 then
      match rest with
      | c1 :: c2 :: r => (160 ≤ c1 && c1 ≤ 191) && isCont c2 && validUtf8 r
      | _ => false
    else if b = 237 then
      match rest with
      | c1 :: c2 :: r => (128 ≤ c1 && c1 ≤ 159) && isCont c2 && validUtf8 r
      | _ => false
    else if b < 240 then
      match rest with
      | c1 :: c2 :: r => isCont c1 && isCont c2 && validUtf8 r
      | _ => false
    else if b = 240 then
      match rest with
      | c1 :: c2 :: c3 :: r => (144 ≤ c1 && c1 ≤ 191) && isCont c2 && isCont c3 && validUtf8 r
      | _ => false
    else if b < 244 then
      match rest with
      | c1 :: c2 :: c3 :: r => isCont c1 && isCont c2 && isCont c3 && validUtf8 r
      | _ => false
    else if b = 244 then
      match rest with
      | c1 :: c2 :: c3 :: r => (128 ≤ c1 && c1 ≤ 143) && isCont c2 && isCont c3 && validUtf8 r
      | _ => false
    else false

/-! ### JSON rendering (transform_bencode_to_json, src/main.rs lines 182-210)

`serde_json::Value` is modelled with objects as assoc lists kept sorted by
key bytes, the canonical representative of the `BTreeMap` that
`serde_json::Map` wraps (its `String` keys order by UTF-8 bytes). -/

inductive JValue where
  | null
  | str (b : List Nat)
  | num (i : Int)
  | arr (l : List JValue)
  | obj (o : List (List Nat × JValue))

/-- Map insert of the JSON object model (`BTreeMap::insert`): sorted
position, replacing the value of an existing key (last write wins). -/
def jInsert : List (List Nat × JValue) → List Nat → JValue → List (List Nat × JValue)
  | [], k, v => [(k, v)]
  | (k', v') :: t, k, v =>
    if k = k' then (k, v) :: t
    else if k < k' then (k, v) :: (k', v') :: t
    else (k', v') :: jInsert t k v

/-- Collect key-value pairs into the JSON object model, in iteration
order (`FromIterator for serde_json::Map`). -/
def objFromList (l : List (List Nat × JValue)) : List (List Nat × JValue) :=
  l.foldl (fun m p => jInsert m p.1 p.2) []

mutual

/-- Embedding of `transform_bencode_to_json`: byte strings become JSON
strings when valid UTF-8 and JSON null otherwise; integers and lists map
structurally; dictionary entries whose key bytes are not valid UTF-8 are
dropped (`filter_map` over `String::from_utf8(key).ok()`). -/
def transform_bencode_to_json : Value → JValue
  | .str b => if validUtf8 b then .str b else .null
  | .int i => .num i
  | .list l => .arr (transformList l)
  | .dict d => .obj (objFromList (transformEntries d))

def transformList : List Value → List JValue
  | [] => []
  | v :: t => transform_bencode_to_json v :: transformList t

def transformEntries : List (List Nat × Value) → List (List Nat × JValue)
  | [] => []
  | (k, v) :: t =>
    if validUtf8 k then (k, transform_bencode_to_json v) :: transformEntries t
    else transformEntries t

end

/-- Panic outcomes of the embedded Rust functions: a `.error` of this type
models process abortion (panic / expect / unwrap failure), not a value
returned to the caller. -/
inductive RPanic where
  | unwrapNone
  | unwrapErr
  | expectColonMissing
  | expectSizeNotNumber
  | keyNotString
  | onlyKeyNoValue
  | unhandledEncodedValue
  | sliceOutOfRange
  | subUnderflow
deriving DecidableEq

/-- Embedding of `decode_bencoded_value_serde_bencode` (src/main.rs lines
213-216): `serde_bencode::from_bytes(..).unwrap()` aborts on any decode
error; on success the value is rendered to JSON. -/
def decode_bencoded_value_serde_bencode (s : List Nat) : Except RPanic JValue :=
  match decode s with
  | .error _ => .error .unwrapErr
  | .ok v => .ok (transform_bencode_to_json v)

/-! ### Metadata extraction (TorrentMetadata / Info, src/main.rs lines 8-21)

Modelled from the spec: the derived serde deserializer for the
`TorrentMetadata` and `Info` structs is library-generated code not present
in src/.  Per the spec, extraction requires `announce` (text), `info`
(dict) with `name` (text), `piece length` (integer), `pieces` (raw bytes),
and optionally `length` (integer); text fields must be valid UTF-8. -/

inductive SchemaError where
  | missingField (name : List Nat)
  | wrongType (name : List Nat)
  | invalidTextEncoding (name : List Nat)
deriving DecidableEq

/-- Typed projection of the `info` dictionary (the Rust `Info` struct,
field `piece_length` serde-renamed to "piece length" on the wire). -/
structure Info where
  name : List Nat
  pieces : List Nat
  piece_length : Int
  length : Option Int
deriving DecidableEq

/-- Typed projection of the whole torrent dictionary. -/
structure TorrentMetadata where
  announce : List Nat
  info : Info
deriving DecidableEq

/-- Assoc-list lookup by raw key bytes. -/
def lookupKey (k : List Nat) : List (List Nat × Value) → Option Value
  | [] => none
  | (k', v) :: t => if k = k' then some v else lookupKey k t

/-- Metadata extractor, modelled from the spec (section 4.4): fails with a
SchemaError when the top level is not a dict, a required field is absent or
of the wrong type, or a text field is not valid UTF-8; unknown extra keys
are ignored; `pieces` stays raw bytes. -/
def extract (v : Value) : Except SchemaError TorrentMetadata :=
  match v with
  | .dict d =>
    match lookupKey (asciiB "announce") d with
    | none => .error (.missingField (asciiB "announce"))
    | some (.str a) =>
      if validUtf8 a then
        match lookupKey (asciiB "info") d with
        | none => .error (.missingField (asciiB "info"))
        | some (.dict di) =>
          match lookupKey (asciiB "name") di with
          | none => .error (.missingField (asciiB "name"))
          | some (.str nm) =>
            if validUtf8 nm then
              match lookupKey (asciiB "piece length") di with
              | none => .error (.missingField (asciiB "piece length"))
              | some (.int pl) =>
                match lookupKey (asciiB "pieces") di with
                | none => .error (.missingField (asciiB "pieces"))
                | some (.str ps) =>
                  match lookupKey (asciiB "length") di with
                  | none => .ok ⟨a, ⟨nm, ps, pl, none⟩⟩
                  | some (.int len) => .ok ⟨a, ⟨nm, ps, pl, some len⟩⟩
                  | some _ => .error (.wrongType (asciiB "length"))
                | some _ => .error (.wrongType (asciiB "pieces"))
              | some _ => .error (.wrongType (asciiB "piece length"))
            else .error (.invalidTextEncoding (asciiB "name"))
          | some _ => .error (.wrongType (asciiB "name"))
        | some _ => .error (.wrongType (asciiB "info"))
      else .error (.invalidTextEncoding (asciiB "announce"))
    | some _ => .error (.wrongType (asciiB "announce"))
  | _ => .error (.wrongType (asciiB "torrent"))

/-- Decode or schema failure of the typed torrent parse. -/
inductive TorrentError where
  | dec (e : DecodeError)
  | schema (e : SchemaError)
deriving DecidableEq

/-- Whole pipeline of `serde_bencode::from_bytes::<TorrentMetadata>`:
decode the file bytes, then extract the typed record. -/
def parseTorrent (f : List Nat) : Except TorrentError TorrentMetadata :=
  match decode f with
  | .error e => .error (.dec e)
  | .ok v =>
    match extract v with
    | .error e => .error (.schema e)
    | .ok m => .ok m

/-- Bencode value of an `Info` record, as re-serialized by
`serde_bencode::to_bytes(&torrent_metadata.info)` (src/main.rs line 259);
modelled from the spec: the canonical encoder sorts the keys, and an
absent optional `length` is omitted. -/
def infoToValue (i : Info) : Value :=
  .dict ([(asciiB "name", .str i.name),
          (asciiB "piece length", .int i.piece_length),
          (asciiB "pieces", .str i.pieces)] ++
    (match i.length with
     | some n => [(asciiB "length", .int n)]
     | none => []))

/-! ### SHA-1 (the sha1 crate used at src/main.rs lines 261-263) -/

/-- Truncate to 32 bits. -/
def u32 (x : Nat) : Nat := x % 4294967296

/-- Rotate a 32-bit word left by `n` bits. -/
def rotl (n x : Nat) : Nat := u32 ((x <<< n) + (x >>> (32 - n)))

/-- SHA-1 round constants. -/
def sha1K (i : Nat) : Nat :=
  if i < 20 then 0x5A827999
  else if i < 40 then 0x6ED9EBA1
  else if i < 60 then 0x8F1BBCDC
  else 0xCA62C1D6

/-- SHA-1 round functions. -/
def sha1F (i b c d : Nat) : Nat :=
  if i < 20 then (b &&& c) ||| ((b ^^^ 0xFFFFFFFF) &&& d)
  else if i < 40 then b ^^^ c ^^^ d
  else if i < 60 then (b &&& c) ||| (b &&& d) ||| (c &&& d)
  else b ^^^ c ^^^ d

/-- Big-endian bytes of a 32-bit word. -/
def be32 (n : Nat) : List Nat :=
  [(n >>> 24) % 256, (n >>> 16) % 256, (n >>> 8) % 256, n % 256]

/-- Big-endian bytes of a 64-bit word. -/
def be64 (n : Nat) : List Nat :=
  [(n >>> 56) % 256, (n >>> 48) % 256, (n >>> 40) % 256, (n >>> 32) % 256,
   (n >>> 24) % 256, (n >>> 16) % 256, (n >>> 8) % 256, n % 256]

/-- Fuel-indexed worker for `chunks` (fuel at least the list length). -/
def chunksAux {α : Type} (n : Nat) : Nat → List α → List (List α)
  | 0, _ => []
  | fuel + 1, l => if l.isEmpty then [] else l.take n :: chunksAux n fuel (l.drop n)

/-- Embedding of Rust `slice::chunks(n)`: successive chunks of `n`
elements; the final chunk is shorter when the length is not a multiple of
`n`; never fails. -/
def chunks {α : Type} (n : Nat) (l : List α) : List (List α) :=
  chunksAux n l.length l

/-- 32-bit words of a 64-byte block, big-endian. -/
def wordsOfBlock (block : List Nat) : List Nat :=
  (chunks 4 block).map (fun w => w.foldl (fun a b => a * 256 + b) 0)

/-- Message-schedule extension: repeatedly append the next word until the
requested count of rounds is filled. -/
def buildW : Nat → List Nat → List Nat → List Nat
  | 0, acc, _ => acc
  | n + 1, acc, ws =>
    let i := acc.length
    let next :=
      if i < 16 then ws.getD i 0
      else rotl 1 ((acc.getD (i - 3) 0) ^^^ (acc.getD (i - 8) 0) ^^^
                   (acc.getD (i - 14) 0) ^^^ (acc.getD (i - 16) 0))
    buildW n (acc ++ [next]) ws

/-- SHA-1 working state. -/
structure SHAState where
  a : Nat
  b : Nat
  c : Nat
  d : Nat
  e : Nat

/-- One SHA-1 round. -/
def sha1Round (w : List Nat) (st : SHAState) (i : Nat) : SHAState :=
  let t := u32 (rotl 5 st.a + sha1F i st.b st.c st.d + st.e + sha1K i + w.getD i 0)
  ⟨t, st.a, rotl 30 st.b, st.c, st.d⟩

/-- SHA-1 compression of one 64-byte block. -/
def sha1Block (h : SHAState) (block : List Nat) : SHAState :=
  let w := buildW 80 [] (wordsOfBlock block)
  let st := (List.range 80).foldl (sha1Round w) h
  ⟨u32 (h.a + st.a), u32 (h.b + st.b), u32 (h.c + st.c),
   u32 (h.d + st.d), u32 (h.e + st.e)⟩

/-- SHA-1 padding: a 0x80 byte, zeros to 56 mod 64, then the bit length as
a big-endian 64-bit integer. -/
def sha1pad (msg : List Nat) : List Nat :=
  let padLen := (64 - ((msg.length + 9) % 64)) % 64
  msg ++ 128 :: List.replicate padLen 0 ++ be64 (8 * msg.length)

/-- SHA-1 digest (20 bytes) of a byte sequence. -/
def sha1 (msg : List Nat) : List Nat :=
  let st := (chunks 64 (sha1pad msg)).foldl sha1Block
    ⟨0x67452301, 0xEFCDAB89, 0x98BADCFE, 0x10325476, 0xC3D2E1F0⟩
  be32 st.a ++ be32 st.b ++ be32 st.c ++ be32 st.d ++ be32 st.e

/-- Info-hash of the spec: SHA-1 over the canonical re-encoding of the
`info` sub-structure only. -/
def compute_info_hash (i : Info) : List Nat := sha1 (encodeValue (infoToValue i))

/-- Everything the `info` command prints, as raw data (text formatting of
the printed lines is outside the model). -/
structure InfoOutput where
  announce : List Nat
  length : Int
  infoHash : List Nat
  pieceLength : Int
  pieceHashes : List (List Nat)
deriving DecidableEq

/-- Embedding of the `info` command core (src/main.rs lines 240-276):
`serde_bencode::from_bytes::<TorrentMetadata>(..).unwrap()` aborts on any
parse failure, `torrent_metadata.info.length.unwrap()` aborts when the
optional length field is absent; otherwise the printed data is produced.
The announce line is printed before the length unwrap aborts, but the
model only records whether the process aborts and with what. -/
def infoCommand (f : List Nat) : Except RPanic InfoOutput :=
  match parseTorrent f with
  | .error _ => .error .unwrapErr
  | .ok m =>
    match m.info.length with
    | none => .error .unwrapNone
    | some len =>
      .ok ⟨m.announce, len, compute_info_hash m.info, m.info.piece_length,
           chunks 20 m.info.pieces⟩

/-! ### The self-made decoder (decode_bencoded_value and
get_end_index_for_next_datatype, src/main.rs lines 29-180)

These functions receive a Rust `&str` and index it by bytes; the
embedding works on the UTF-8 bytes.  String slicing panics when an index
is out of range or not on a character boundary, and `unwrap` / `expect` /
explicit panics abort: all of these are modelled as `.error` outcomes of
`RPanic`.  The `Option _` layer is recursion fuel only: `none` never
occurs with enough fuel and does not model any program behavior. -/

/-- Rust `str::is_char_boundary` on the byte list model. -/
def isBoundary (s : List Nat) (i : Nat) : Bool :=
  if i = 0 then true
  else if i < s.length then !(128 ≤ s.getD i 0 && s.getD i 0 < 192)
  else i == s.length

/-- Inclusive range slicing `&s[a..=b]`: panics (slice error) when out of
range or not on character boundaries. -/
def sliceIncl (s : List Nat) (a b : Nat) : Except RPanic (List Nat) :=
  if a ≤ b + 1 && b + 1 ≤ s.length && isBoundary s a && isBoundary s (b + 1) then
    .ok ((s.drop a).take (b + 1 - a))
  else .error .sliceOutOfRange

/-- Checked suffix slicing `s.get(a..)`: `none` when out of range or not a
character boundary. -/
def sliceFrom (s : List Nat) (a : Nat) : Option (List Nat) :=
  if a ≤ s.length && isBoundary s a then some (s.drop a) else none

/-- Rust `str::parse::<i64>`: optional single sign, then at least one
digit (leading zeros accepted), within the i64 range. -/
def parseI64 (s : List Nat) : Option Int :=
  match s with
  | 45 :: ds =>
    if !ds.isEmpty && ds.all isDigit && decide (parseNat ds ≤ 9223372036854775808) then
      some (-(parseNat ds : Int))
    else none
  | 43 :: ds =>
    if !ds.isEmpty && ds.all isDigit && decide (parseNat ds ≤ 9223372036854775807) then
      some (parseNat ds : Int)
    else none
  | ds =>
    if !ds.isEmpty && ds.all isDigit && decide (parseNat ds ≤ 9223372036854775807) then
      some (parseNat ds : Int)
    else none

/-- Rust `i64 as usize` (wrapping cast). -/
def usizeOfI64 (v : Int) : Nat := (v % 18446744073709551616).toNat

mutual

/-- Embedding of `get_end_index_for_next_datatype` (src/main.rs lines
29-94): computes the inclusive end index of the next value inside
`s[start..=endP]`.  The string branch trusts the parsed declared size; the
integer branch takes the first `e`; the list and dict branches run the
same cursor loop; any other leading byte leaves `end_index` unchanged and
returns `start + endP`. -/
def get_end_index_for_next_datatype :
    Nat → List Nat → Nat → Nat → Option (Except RPanic Nat)
  | 0, _, _, _ => none
  | fuel + 1, s, start, endP =>
    match sliceIncl s start endP with
    | .error p => some (.error p)
    | .ok range =>
      match range.head? with
      | none => some (.error .unwrapNone)
      | some c =>
        if isDigit c then
          match List.findIdx? (fun b => b == 58) range with
          | none => some (.error .expectColonMissing)
          | some colonIdx =>
            match parseI64 (range.take colonIdx) with
            | none => some (.error .expectSizeNotNumber)
            | some sz => some (.ok (start + (colonIdx + usizeOfI64 sz)))
        else if c = 105 then
          match List.findIdx? (fun b => b == 101) range with
          | none => some (.error .unwrapNone)
          | some eIdx => some (.ok (start + eIdx))
        else if c = 108 || c = 100 then
          get_end_index_loop fuel s start endP range 1
        else some (.ok (start + endP))
termination_by structural fuel => fuel

/-- The cursor loop shared by the list and dict branches of
`get_end_index_for_next_datatype`: advance `next_index` past one value at
a time until the next byte is `e`. -/
def get_end_index_loop :
    Nat → List Nat → Nat → Nat → List Nat → Nat → Option (Except RPanic Nat)
  | 0, _, _, _, _, _ => none
  | fuel + 1, s, start, endP, range, nextIndex =>
    match sliceFrom range nextIndex with
    | none => some (.error .unwrapNone)
    | some sub =>
      if sub.head? == some 101 then some (.ok (start + nextIndex))
      else
        match get_end_index_for_next_datatype fuel s (start + nextIndex) endP with
        | none => none
        | some (.error p) => some (.error p)
        | some (.ok r) =>
          if r + 1 < start then some (.error .subUnderflow)
          else get_end_index_loop fuel s start endP range (r + 1 - start)
termination_by structural fuel => fuel

end

mutual

/-- Embedding of `decode_bencoded_value` (src/main.rs lines 97-180).  The
digit branch finds the first colon and returns everything after it as the
string, without consulting the declared length; the integer branch strips
`i` and `e` and unwraps `parse::<i64>`; the list and dict branches walk
the buffer with `get_end_index_for_next_datatype` and recurse on each
inclusive sub-slice; a dict key that is not a string, a key without a
value, and an unrecognized leading byte all panic. -/
def decode_bencoded_value : Nat → List Nat → Option (Except RPanic JValue)
  | 0, _ => none
  | fuel + 1, s =>
    match s.head? with
    | none => some (.error .unwrapNone)
    | some c =>
      if isDigit c then
        match List.findIdx? (fun b => b == 58) s with
        | none => some (.error .expectColonMissing)
        | some ci =>
          if isBoundary s (ci + 1) then some (.ok (.str (s.drop (ci + 1))))
          else some (.error .sliceOutOfRange)
      else if c = 105 && s.getLast? == some 101 then
        match parseI64 (s.drop 1).dropLast with
        | none => some (.error .unwrapErr)
        | some v => some (.ok (.num v))
      else if c = 108 && s.getLast? == some 101 then
        decode_bencoded_value_list_loop fuel s (s.length - 1) 1 []
      else if c = 100 && s.getLast? == some 101 then
        decode_bencoded_value_dict_loop fuel s (s.length - 1) 1 []
      else some (.error .unhandledEncodedValue)
termination_by structural fuel => fuel

/-- The element loop of the list branch of `decode_bencoded_value`. -/
def decode_bencoded_value_list_loop :
    Nat → List Nat → Nat → Nat → List JValue → Option (Except RPanic JValue)
  | 0, _, _, _, _ => none
  | fuel + 1, s, endP, nextFirst, acc =>
    if nextFirst < endP then
      match get_end_index_for_next_datatype fuel s nextFirst endP with
      | none => none
      | some (.error p) => some (.error p)
      | some (.ok nextEnd) =>
        match sliceIncl s nextFirst nextEnd with
        | .error p => some (.error p)
        | .ok sub =>
          match decode_bencoded_value fuel sub with
          | none => none
          | some (.error p) => some (.error p)
          | some (.ok v) =>
            decode_bencoded_value_list_loop fuel s endP (nextEnd + 1) (acc ++ [v])
    else some (.ok (.arr acc))
termination_by structural fuel => fuel

/-- The key-value loop of the dict branch of `decode_bencoded_value` (the
collected map is a `serde_json::Map`, inserting replaces: last write
wins). -/
def decode_bencoded_value_dict_loop :
    Nat → List Nat → Nat → Nat → List (List Nat × JValue) → Option (Except RPanic JValue)
  | 0, _, _, _, _ => none
  | fuel + 1, s, endP, nextFirst, m =>
    if nextFirst < endP then
      match get_end_index_for_next_datatype fuel s nextFirst endP with
      | none => none
      | some (.error p) => some (.error p)
      | some (.ok nextEnd) =>
        match sliceIncl s nextFirst nextEnd with
        | .error p => some (.error p)
        | .ok sub =>
          match decode_bencoded_value fuel sub with
          | none => none
          | some (.error p) => some (.error p)
          | some (.ok key) =>
            match key with
            | .str kb =>
              if nextEnd + 1 ≥ endP then some (.error .onlyKeyNoValue)
              else
                match get_end_index_for_next_datatype fuel s (nextEnd + 1) endP with
                | none => none
                | some (.error p) => some (.error p)
                | some (.ok nextEnd2) =>
                  match sliceIncl s (nextEnd + 1) nextEnd2 with
                  | .error p => some (.error p)
                  | .ok sub2 =>
                    match decode_bencoded_value fuel sub2 with
                    | none => none
                    | some (.error p) => some (.error p)
                    | some (.ok v) =>
                      decode_bencoded_value_dict_loop fuel s endP (nextEnd2 + 1)
                        (jInsert m kb v)
            | _ => some (.error .keyNotString)
    else some (.ok (.obj m))
termination_by structural fuel => fuel

end

/-! ### Lemmas about chunk splitting -/

theorem chunksAux_cons_eq {α : Type} (n f : Nat) (a : α) (t : List α) :
    chunksAux n (f + 1) (a :: t) =
      List.take n (a :: t) :: chunksAux n f (List.drop n (a :: t)) := by
  simp [chunksAux]

theorem chunksAux_join {α : Type} (n : Nat) :
    ∀ fuel (l : List α), l.length ≤ fuel → 0 < n → (chunksAux n fuel l).flatten = l := by
  intro fuel
  induction fuel with
  | zero =>
    intro l hl _
    cases l with
    | nil => rfl
    | cons a t => simp at hl
  | succ f ih =>
    intro l hl hn
    cases l with
    | nil => rfl
    | cons a t =>
      have hl' : t.length + 1 ≤ f + 1 := by simpa using hl
      have hd : ((a :: t).drop n).length ≤ f := by
        simp only [List.length_drop, List.length_cons]
        omega
      rw [chunksAux_cons_eq, List.flatten_cons, ih _ hd hn, List.take_append_drop]

theorem chunksAux_mem {α : Type} (n : Nat) :
    ∀ fuel (l : List α) c, l.length ≤ fuel → 0 < n →
      c ∈ chunksAux n fuel l → c ≠ [] ∧ c.length ≤ n := by
  intro fuel
  induction fuel with
  | zero =>
    intro l c hl _ hc
    cases l <;> simp [chunksAux] at hc
  | succ f ih =>
    intro l c hl hn hc
    cases l with
    | nil => simp [chunksAux] at hc
    | cons a t =>
      have hl' : t.length + 1 ≤ f + 1 := by simpa using hl
      rw [chunksAux_cons_eq] at hc
      rcases List.mem_cons.mp hc with hc | hc
      · subst hc
        refine ⟨?_, by simp⟩
        have hlt : (List.take n (a :: t)).length = min n (t.length + 1) := by simp
        intro hnil
        rw [hnil] at hlt
        simp at hlt
        omega
      · have hd : ((a :: t).drop n).length ≤ f := by
          simp only [List.length_drop, List.length_cons]
          omega
        exact ih _ c hd hn hc

theorem chunksAux_exact {α : Type} (n : Nat) :
    ∀ fuel (l : List α), l.length ≤ fuel → 0 < n → n ∣ l.length →
      (chunksAux n fuel l).length = l.length / n ∧
      ∀ c ∈ chunksAux n fuel l, c.length = n := by
  intro fuel
  induction fuel with
  | zero =>
    intro l hl hn _
    cases l with
    | nil => simp [chunksAux]
    | cons a t => simp at hl
  | succ f ih =>
    intro l hl hn hdvd
    cases l with
    | nil => simp [chunksAux]
    | cons a t =>
      have hl' : t.length + 1 ≤ f + 1 := by simpa using hl
      obtain ⟨k, hk⟩ := hdvd
      have hk' : t.length + 1 = n * k := by simpa using hk
      have hkpos : 0 < k := by
        rcases Nat.eq_zero_or_pos k with h | h
        · rw [h, Nat.mul_zero] at hk'; omega
        · exact h
      have hlen : n ≤ t.length + 1 := by
        calc n = n * 1 := (Nat.mul_one n).symm
        _ ≤ n * k := Nat.mul_le_mul_left n hkpos
        _ = t.length + 1 := hk'.symm
      have hdlen : ((a :: t).drop n).length = t.length + 1 - n := by simp
      have hsub : n * k - n = n * (k - 1) := by
        cases k with
        | zero => omega
        | succ k2 => rw [Nat.mul_succ, Nat.succ_sub_one, Nat.add_sub_cancel]
      have hdvd2 : n ∣ ((a :: t).drop n).length := by
        rw [hdlen, hk', hsub]
        exact ⟨k - 1, rfl⟩
      have ihr := ih _ (by rw [hdlen]; omega) hn hdvd2
      constructor
      · rw [chunksAux_cons_eq, List.length_cons, ihr.1, hdlen, hk', hsub,
          Nat.mul_div_cancel_left _ hn]
        have h2 : (a :: t).length / n = k := by
          rw [show (a :: t).length = n * k from by simpa using hk',
            Nat.mul_div_cancel_left _ hn]
        rw [h2]
        omega
      · intro c hc
        rw [chunksAux_cons_eq] at hc
        rcases List.mem_cons.mp hc with hc | hc
        · subst hc
          simp
          omega
        · exact ihr.2 c hc

/-- C3 counterexample: a 39-byte pieces buffer is split by the program into
a 20-byte chunk followed by a silently shorter 19-byte chunk; no
MalformedPieceBuffer error exists anywhere in the program. -/
theorem claim_C3_counterexample :
    chunks 20 (List.replicate 39 (0 : Nat)) =
      [List.replicate 20 (0 : Nat), List.replicate 19 (0 : Nat)] := by decide

/-- C3 amended: the pieces buffer is split with `chunks(20)`, which never
fails: the chunks concatenate back to the buffer in order, every chunk is
nonempty with at most 20 bytes, and when the length is a multiple of 20
there are exactly length / 20 chunks of exactly 20 bytes each; a length
that is not a multiple of 20 silently yields a shorter final chunk instead
of a MalformedPieceBuffer error. -/
theorem claim_C3 (l : List Nat) :
    (chunks 20 l).flatten = l ∧
    (∀ c ∈ chunks 20 l, c ≠ [] ∧ c.length ≤ 20) ∧
    (20 ∣ l.length →
      (chunks 20 l).length = l.length / 20 ∧ ∀ c ∈ chunks 20 l, c.length = 20) :=
  ⟨chunksAux_join 20 l.length l le_rfl (by omega),
   fun c hc => chunksAux_mem 20 l.length l c le_rfl (by omega) hc,
   fun hdvd => chunksAux_exact 20 l.length l le_rfl (by omega) hdvd⟩

/-- C3 witness: the spec's 40-byte example splits into exactly 2 chunks of
20 bytes each. -/
theorem claim_C3_witness :
    (chunks 20 (List.replicate 40 (0 : Nat))).length = 2 ∧
    ∀ c ∈ chunks 20 (List.replicate 40 (0 : Nat)), c.length = 20 := by
  have h := (claim_C3 (List.replicate 40 (0 : Nat))).2.2 (by decide)
  exact ⟨h.1, h.2⟩

/-- C9: in the decode command rendering, a byte string that is not valid
UTF-8 renders as JSON null, and a dictionary entry whose key bytes are not
valid UTF-8 is omitted from the rendered object entirely, without any
error. -/
theorem claim_C9 (b k : List Nat) (v : Value) (es : List (List Nat × Value)) :
    (validUtf8 b = false → transform_bencode_to_json (.str b) = .null) ∧
    (validUtf8 k = false →
      transform_bencode_to_json (.dict ((k, v) :: es)) =
        transform_bencode_to_json (.dict es)) := by
  constructor
  · intro h
    simp [transform_bencode_to_json, h]
  · intro h
    simp [transform_bencode_to_json, transformEntries, h]

/-- C9 witness: the byte 255 is not valid UTF-8; a string of it renders as
null and a dictionary entry keyed by it disappears from the rendering. -/
theorem claim_C9_witness :
    validUtf8 [255] = false ∧
    transform_bencode_to_json (.str [255]) = .null ∧
    transform_bencode_to_json (.dict [([255], .int 0)]) =
      transform_bencode_to_json (.dict []) :=
  ⟨by decide, (claim_C9 [255] [255] (.int 0) []).1 (by decide),
   (claim_C9 [255] [255] (.int 0) []).2 (by decide)⟩

/-- C10: when a torrent file parses successfully but its info dictionary
has no length key, the info command aborts (the None branch of the
optional length is unwrapped), even though length is typed as optional. -/
theorem claim_C10 (f : List Nat) (m : TorrentMetadata)
    (h1 : parseTorrent f = .ok m) (h2 : m.info.length = none) :
    infoCommand f = .error .unwrapNone := by
  simp [infoCommand, h1, h2]

/-- C10 witness: a concrete torrent file with announce and a complete info
dictionary except for length parses successfully and makes the info
command abort on the length unwrap. -/
theorem claim_C10_witness :
    parseTorrent (asciiB "d8:announce3:url4:infod4:name1:n12:piece lengthi1e6:pieces20:aaaaaaaaaaaaaaaaaaaaee") =
      .ok ⟨asciiB "url", ⟨asciiB "n", List.replicate 20 97, 1, none⟩⟩ ∧
    infoCommand (asciiB "d8:announce3:url4:infod4:name1:n12:piece lengthi1e6:pieces20:aaaaaaaaaaaaaaaaaaaaee") =
      .error .unwrapNone :=
  ⟨rfl, claim_C10 _ ⟨asciiB "url", ⟨asciiB "n", List.replicate 20 97, 1, none⟩⟩ rfl rfl⟩

/-! ### Claims about the self-made decoder -/

theorem ascii_isBoundary {s : List Nat} (h : ∀ b ∈ s, b < 128) {i : Nat}
    (hi : i ≤ s.length) : isBoundary s i = true := by
  by_cases h0 : i = 0
  · simp [isBoundary, h0]
  · by_cases hlt : i < s.length
    · have hsmall : s[i] < 128 := h _ (List.getElem_mem hlt)
      have hg : s.getD i 0 = s[i] := List.getD_eq_getElem s 0 hlt
      simp [isBoundary, h0, hlt]
      omega
    · have hieq : i = s.length := by omega
      simp [isBoundary, h0, hlt, hieq]

/-- C1 counterexample: on the malformed input "i52" (unterminated integer)
the self-made decoder does not surface a typed UnterminatedInteger error:
it reaches the catch-all branch and aborts the process with the
"Unhandled encoded value" panic. -/
theorem claim_C1_counterexample :
    decode_bencoded_value 50 (asciiB "i52") =
      some (.error .unhandledEncodedValue) := rfl

/-- C1 amended: the core does not return typed error values for malformed
input; it aborts the process.  Whenever the leading character is not a
digit and no start-and-end tag pair matches, `decode_bencoded_value`
aborts with the "Unhandled encoded value" panic (this covers the spec's
example "i52"); and `decode_bencoded_value_serde_bencode` aborts via
`unwrap` on any input whose library decode fails, such as "i52". -/
theorem claim_C1 :
    (∀ (fuel : Nat) (s : List Nat) (c : Nat), s.head? = some c →
      isDigit c = false →
      (c = 105 → s.getLast? ≠ some 101) →
      (c = 108 → s.getLast? ≠ some 101) →
      (c = 100 → s.getLast? ≠ some 101) →
      decode_bencoded_value (fuel + 1) s = some (.error .unhandledEncodedValue)) ∧
    decode_bencoded_value_serde_bencode (asciiB "i52") = .error .unwrapErr := by
  constructor
  · intro fuel s c h1 h2 h3 h4 h5
    cases s with
    | nil => simp at h1
    | cons a t =>
      have hac : a = c := by simpa using h1
      subst hac
      have e2 : (decide (a = 105) && ((a :: t).getLast? == some 101)) = false := by
        by_cases h : a = 105
        · have hne := h3 h
          subst h
          simp [hne]
        · simp [h]
      have e3 : (decide (a = 108) && ((a :: t).getLast? == some 101)) = false := by
        by_cases h : a = 108
        · have hne := h4 h
          subst h
          simp [hne]
        · simp [h]
      have e4 : (decide (a = 100) && ((a :: t).getLast? == some 101)) = false := by
        by_cases h : a = 100
        · have hne := h5 h
          subst h
          simp [hne]
        · simp [h]
      simp [decode_bencoded_value, h2, e2, e3, e4]
  · rfl

/-- C1 witness: the amended claim applied to the input "i52". -/
theorem claim_C1_witness :
    isDigit 105 = false ∧
    decode_bencoded_value 50 (asciiB "i52") =
      some (.error .unhandledEncodedValue) :=
  ⟨by decide,
   claim_C1.1 49 (asciiB "i52") 105 rfl (by decide) (by decide) (by decide) (by decide)⟩

/-- C2 counterexample: decoding "5:hi" does not fail with TruncatedString;
it succeeds and returns the shorter string "hi". -/
theorem claim_C2_counterexample :
    decode_bencoded_value 50 (asciiB "5:hi") =
      some (.ok (.str (asciiB "hi"))) := rfl

/-- C2 amended: for any ASCII input whose leading byte is a digit and that
contains a colon, `decode_bencoded_value` ignores the declared length
entirely and returns everything after the first colon as the string, so a
declared length exceeding the available bytes is not detected. -/
theorem claim_C2 (fuel : Nat) (s : List Nat) (c ci : Nat)
    (hascii : ∀ b ∈ s, b < 128)
    (h1 : s.head? = some c) (h2 : isDigit c = true)
    (h3 : List.findIdx? (fun b => b == 58) s = some ci) :
    decode_bencoded_value (fuel + 1) s = some (.ok (.str (s.drop (ci + 1)))) := by
  have hci : ci < s.length := (List.findIdx?_eq_some_iff_findIdx_eq.mp h3).1
  have hb : isBoundary s (ci + 1) = true := ascii_isBoundary hascii (by omega)
  cases s with
  | nil => simp at h1
  | cons a t =>
    have hac : a = c := by simpa using h1
    subst hac
    simp [decode_bencoded_value, h2, h3, hb]

/-- C2 witness: the amended claim applied to "5:hi" (declared length 5,
only 2 bytes available) returns the string "hi". -/
theorem claim_C2_witness :
    isDigit 53 = true ∧
    decode_bencoded_value 50 (asciiB "5:hi") =
      some (.ok (.str (asciiB "hi"))) :=
  ⟨by decide,
   claim_C2 49 (asciiB "5:hi") 53 1 (by decide) rfl (by decide) (by decide)⟩

/-- C7 counterexample: decoding the dictionary "dlei1ee", whose key is the
empty list, does not produce a typed NonStringDictKey error: the process
aborts with the "key should be a string" panic. -/
theorem claim_C7_counterexample :
    decode_bencoded_value 50 (asciiB "dlei1ee") =
      some (.error .keyNotString) := rfl

/-- C7 amended: a dictionary key that is not a string does not yield a
typed NonStringDictKey error; the process aborts with the "key should be a
string" panic.  Shown for every dictionary of the family "di(d)ei1ee"
whose key is the integer with digit d. -/
theorem claim_C7 (d : Nat) (hd : isDigit d = true) :
    decode_bencoded_value 50 ([100, 105] ++ [d] ++ [101] ++ asciiB "i1ee") =
      some (.error .keyNotString) := by
  have hb : 48 ≤ d ∧ d ≤ 57 := by simpa [isDigit] using hd
  obtain ⟨hb1, hb2⟩ := hb
  interval_cases d <;> rfl

/-- C7 witness: the amended claim applied to the input "di1ei1ee" (integer
key 1). -/
theorem claim_C7_witness :
    isDigit 49 = true ∧
    decode_bencoded_value 50 ([100, 105] ++ [49] ++ [101] ++ asciiB "i1ee") =
      some (.error .keyNotString) :=
  ⟨by decide, claim_C7 49 (by decide)⟩

/-- C8 counterexample: decoding "d3:fooi1e3:fooi2ee", in which the key
"foo" occurs twice, does not fail with DuplicateDictKey: it succeeds and
keeps the last-seen value 2. -/
theorem claim_C8_counterexample :
    decode_bencoded_value 60 (asciiB "d3:fooi1e3:fooi2ee") =
      some (.ok (.obj [(asciiB "foo", .num 2)])) := rfl

/-- C8 amended: a repeated dictionary key is not an error; the map insert
keeps the last-seen value (last write wins).  Shown for every dictionary
of the family "d3:fooi1e3:foo1:(b)e" binding "foo" first to 1 and then to
the one-byte string b: the decoded object holds only the second value. -/
theorem claim_C8 (b : Nat) (hb : b < 128) :
    decode_bencoded_value 60 (asciiB "d3:fooi1e3:foo1:" ++ [b] ++ [101]) =
      some (.ok (.obj [(asciiB "foo", .str [b])])) := by
  interval_cases b <;> rfl

/-- C8 witness: the amended claim applied at byte 120, the letter x. -/
theorem claim_C8_witness :
    120 < 128 ∧
    decode_bencoded_value 60 (asciiB "d3:fooi1e3:foo1:" ++ [120] ++ [101]) =
      some (.ok (.obj [(asciiB "foo", .str [120])])) :=
  ⟨by decide, claim_C8 120 (by decide)⟩

/-! ### Sortedness of the canonical encoder's key order -/

theorem insSorted_pairwise {l : List (List Nat × Value)} (p : List Nat × Value)
    (h : l.Pairwise (fun a b => ¬ b.1 < a.1)) :
    (insSorted p l).Pairwise (fun a b => ¬ b.1 < a.1) := by
  induction l with
  | nil => simp [insSorted]
  | cons q qs ih =>
    rw [List.pairwise_cons] at h
    obtain ⟨hq, hqs⟩ := h
    simp only [insSorted]
    split
    case isTrue hlt =>
      rw [List.pairwise_cons]
      constructor
      · intro b hb
        rcases List.mem_cons.mp hb with rfl | hb
        · exact lt_asymm hlt
        · intro hcon
          exact (hq b hb) (lt_trans hcon hlt)
      · exact List.pairwise_cons.mpr ⟨hq, hqs⟩
    case isFalse hge =>
      rw [List.pairwise_cons]
      constructor
      · intro b hb
        have hmem := (insSorted_perm p qs).mem_iff.mp hb
        rcases List.mem_cons.mp hmem with rfl | hb2
        · exact hge
        · exact hq b hb2
      · exact ih hqs

theorem sortPairs_sorted (l : List (List Nat × Value)) :
    (sortPairs l).Pairwise (fun a b => ¬ b.1 < a.1) := by
  induction l with
  | nil => simp [sortPairs]
  | cons p t ih =>
    simp only [sortPairs, List.foldr_cons]
    exact insSorted_pairwise p ih

theorem eq_of_perm_sorted :
    ∀ (l l' : List (List Nat × Value)), List.Perm l l' →
      l.Pairwise (fun a b => ¬ b.1 < a.1) →
      l'.Pairwise (fun a b => ¬ b.1 < a.1) →
      (l.map Prod.fst).Nodup → l = l' := by
  intro l
  induction l with
  | nil =>
    intro l' h _ _ _
    exact (List.Perm.eq_nil h.symm).symm
  | cons p t ih =>
    intro l' h hs hs' hnd
    cases l' with
    | nil => exact absurd h.eq_nil (by simp)
    | cons p' t' =>
      by_cases hpp : p = p'
      · subst hpp
        have ht : List.Perm t t' := h.cons_inv
        have hnd' : (t.map Prod.fst).Nodup := by
          have : (p.1 :: t.map Prod.fst).Nodup := by simpa using hnd
          exact (List.nodup_cons.mp this).2
        rw [ih t' ht (List.pairwise_cons.mp hs).2 (List.pairwise_cons.mp hs').2 hnd']
      · exfalso
        have hp'mem : p' ∈ p :: t := h.symm.subset (List.mem_cons_self p' t')
        have hpmem : p ∈ p' :: t' := h.subset (List.mem_cons_self p t)
        have hp't : p' ∈ t := by
          rcases List.mem_cons.mp hp'mem with h1 | h1
          · exact absurd h1.symm hpp
          · exact h1
        have hpt' : p ∈ t' := by
          rcases List.mem_cons.mp hpmem with h1 | h1
          · exact absurd h1 hpp
          · exact h1
        have r1 : ¬ p'.1 < p.1 := (List.pairwise_cons.mp hs).1 p' hp't
        have r2 : ¬ p.1 < p'.1 := (List.pairwise_cons.mp hs').1 p hpt'
        have hkey : p.1 = p'.1 := by
          rcases lt_trichotomy p.1 p'.1 with h1 | h1 | h1
          · exact absurd h1 r2
          · exact h1
          · exact absurd h1 r1
        have hin : p.1 ∈ t.map Prod.fst := by
          rw [hkey]
          exact List.mem_map_of_mem Prod.fst hp't
        have hnd2 : (p.1 :: t.map Prod.fst).Nodup := by simpa using hnd
        exact (List.nodup_cons.mp hnd2).1 hin

/-- C5: the canonical encoder emits dictionary entries sorted ascending by
raw key bytes regardless of stored entry order: two dictionaries whose
entry lists are permutations of each other (with no repeated key) encode
to the identical byte sequence. -/
theorem claim_C5 (es es' : List (List Nat × Value))
    (hperm : List.Perm es es') (hnd : (es.map Prod.fst).Nodup) :
    encodeValue (.dict es) = encodeValue (.dict es') := by
  have h1 : sortPairs es = sortPairs es' := by
    apply eq_of_perm_sorted
    · exact (sortPairs_perm es).trans (hperm.trans (sortPairs_perm es').symm)
    · exact sortPairs_sorted es
    · exact sortPairs_sorted es'
    · exact ((sortPairs_perm es).map Prod.fst).nodup_iff.mpr hnd
  simp only [encodeValue, h1]

/-- C5 witness: the spec's example dictionaries, spam-then-cow and
cow-then-spam with the same bindings, encode identically. -/
theorem claim_C5_witness :
    List.Perm [(asciiB "spam", Value.int 1), (asciiB "cow", Value.int 2)]
      [(asciiB "cow", Value.int 2), (asciiB "spam", Value.int 1)] ∧
    encodeValue (.dict [(asciiB "spam", .int 1), (asciiB "cow", .int 2)]) =
      encodeValue (.dict [(asciiB "cow", .int 2), (asciiB "spam", .int 1)]) :=
  ⟨List.Perm.swap _ _ _,
   claim_C5 _ _ (List.Perm.swap _ _ _) (by decide)⟩

theorem sha1_length (msg : List Nat) : (sha1 msg).length = 20 := by
  simp [sha1, be32]

/-! ### Decimal rendering round-trip lemmas -/

theorem natDigits_lt10 : ∀ n, ∀ d ∈ natDigits n, d < 10 := by
  intro n
  induction n using Nat.strong_induction_on with
  | _ n ih =>
    by_cases h : n < 10
    · rw [natDigits]
      simp only [h, dite_true, List.mem_singleton]
      intro d hd
      omega
    · rw [natDigits]
      simp only [h, dite_false, List.mem_append, List.mem_singleton]
      intro d hd
      rcases hd with hd | hd
      · exact ih (n / 10) (Nat.div_lt_self (by omega) (by omega)) d hd
      · subst hd
        exact Nat.mod_lt n (by omega)

theorem natDigits_ne_nil : ∀ n, natDigits n ≠ [] := by
  intro n
  by_cases h : n < 10
  · rw [natDigits]
    simp [h]
  · rw [natDigits]
    simp [h]

theorem natDigits_head_pos : ∀ n, n ≠ 0 → ∃ d t, natDigits n = d :: t ∧ 0 < d := by
  intro n
  induction n using Nat.strong_induction_on with
  | _ n ih =>
    intro hn
    by_cases h : n < 10
    · rw [natDigits]
      simp [h]
      omega
    · have hq : n / 10 ≠ 0 := by
        intro hq0
        have := Nat.div_add_mod n 10
        have := Nat.mod_lt n (show 0 < 10 by omega)
        omega
      obtain ⟨d, t, hdt, hd⟩ := ih (n / 10) (Nat.div_lt_self (by omega) (by omega)) hq
      refine ⟨d, t ++ [n % 10], ?_, hd⟩
      rw [natDigits]
      simp [h, hdt]

theorem natDigits_parse : ∀ n acc,
    (natDigits n).foldl (fun a d => a * 10 + d) acc =
      acc * 10 ^ (natDigits n).length + n := by
  intro n
  induction n using Nat.strong_induction_on with
  | _ n ih =>
    intro acc
    by_cases h : n < 10
    · rw [natDigits]
      simp [h]
    · rw [natDigits]
      simp only [h, dite_false, List.foldl_append, List.foldl_cons, List.foldl_nil,
        List.length_append, List.length_singleton]
      rw [ih (n / 10) (Nat.div_lt_self (by omega) (by omega)) acc]
      have hmod : 10 * (n / 10) + n % 10 = n := Nat.div_add_mod n 10
      calc (acc * 10 ^ (natDigits (n / 10)).length + n / 10) * 10 + n % 10
          = acc * (10 ^ (natDigits (n / 10)).length * 10) +
              (10 * (n / 10) + n % 10) := by ring
        _ = acc * 10 ^ ((natDigits (n / 10)).length + 1) + n := by
            rw [← pow_succ, hmod]

theorem toDec_digits (n : Nat) : ∀ b ∈ toDec n, 48 ≤ b ∧ b ≤ 57 := by
  intro b hb
  simp only [toDec, List.mem_map] at hb
  obtain ⟨d, hd, rfl⟩ := hb
  have := natDigits_lt10 n d hd
  omega

theorem toDec_ne_nil (n : Nat) : toDec n ≠ [] := by
  simp only [toDec]
  intro h
  exact natDigits_ne_nil n (List.map_eq_nil_iff.mp h)

theorem parseNat_toDec (n : Nat) : parseNat (toDec n) = n := by
  simp only [parseNat, toDec, List.foldl_map, Nat.add_sub_cancel]
  have := natDigits_parse n 0
  simpa using this

theorem toDec_cons (n : Nat) :
    ∃ d t, toDec n = d :: t ∧ isDigit d = true := by
  cases hd : toDec n with
  | nil => exact absurd hd (toDec_ne_nil n)
  | cons d t =>
    have hmem : d ∈ toDec n := by rw [hd]; simp
    have := toDec_digits n d hmem
    exact ⟨d, t, rfl, by simp [isDigit]; omega⟩

theorem lengthTextValid_toDec (n : Nat) : lengthTextValid (toDec n) = true := by
  by_cases h : n < 10
  · have hd : natDigits n = [n] := by rw [natDigits]; simp [h]
    simp only [toDec, hd, List.map_cons, List.map_nil, lengthTextValid, List.isEmpty_nil,
      if_true]
    simp [isDigit]
    omega
  · have hq : n / 10 ≠ 0 := by
      intro hq0
      have := Nat.div_add_mod n 10
      have := Nat.mod_lt n (show 0 < 10 by omega)
      omega
    obtain ⟨d, t, hdt, hdpos⟩ := natDigits_head_pos (n / 10) hq
    have hd10 : d < 10 := natDigits_lt10 (n / 10) d (by rw [hdt]; simp)
    have hform : natDigits n = d :: (t ++ [n % 10]) := by
      rw [natDigits]
      simp [h, hdt]
    have halldig : ∀ b ∈ (t ++ [n % 10]).map (· + 48), isDigit b = true := by
      intro b hb
      simp only [List.mem_map] at hb
      obtain ⟨x, hx, rfl⟩ := hb
      have hx10 : x < 10 := by
        have : x ∈ natDigits n := by rw [hform]; simp [hx]
        exact natDigits_lt10 n x this
      simp [isDigit]
      omega
    simp only [toDec, hform, List.map_cons, lengthTextValid]
    rw [if_neg (by simp)]
    simp only [Bool.and_eq_true]
    refine ⟨⟨?_, ?_⟩, ?_⟩
    · simp [isDigit]
      omega
    · simp
      omega
    · rw [List.all_eq_true]
      exact halldig

theorem intBytes_valid (i : Int) : intTextValid (intBytes i) = true := by
  by_cases h : i < 0
  · have hna : i.natAbs ≠ 0 := by omega
    obtain ⟨d, t, hdt, hdpos⟩ := natDigits_head_pos i.natAbs hna
    have hform : toDec i.natAbs = (d + 48) :: t.map (· + 48) := by
      simp [toDec, hdt]
    simp only [intBytes, if_pos h, intTextValid, hform, if_true]
    simp only [Bool.and_eq_true, decide_eq_true_eq]
    constructor
    · omega
    · rw [List.all_eq_true]
      intro b hb
      have : b ∈ toDec i.natAbs := by rw [hform]; exact hb
      have := toDec_digits _ b this
      simp [isDigit]
      omega
  · obtain ⟨d, t, hdt, hdig⟩ := toDec_cons i.toNat
    have hd45 : d ≠ 45 := by
      have hmem : d ∈ toDec i.toNat := by rw [hdt]; simp
      have := toDec_digits _ d hmem
      omega
    simp only [intBytes, if_neg h, hdt, intTextValid, if_neg hd45]
    rw [← hdt]
    exact lengthTextValid_toDec i.toNat

theorem intVal_intBytes (i : Int) : intVal (intBytes i) = i := by
  by_cases h : i < 0
  · simp only [intBytes, if_pos h]
    rw [show intVal (45 :: toDec i.natAbs) = -(parseNat (toDec i.natAbs) : Int) from by
      simp [intVal]]
    rw [parseNat_toDec]
    omega
  · obtain ⟨d, t, hdt, hdig⟩ := toDec_cons i.toNat
    have hd45 : d ≠ 45 := by
      have hmem : d ∈ toDec i.toNat := by rw [hdt]; simp
      have := toDec_digits _ d hmem
      omega
    simp only [intBytes, if_neg h, hdt, intVal, if_neg hd45]
    rw [← hdt, parseNat_toDec]
    omega

theorem intBytes_ne_e (i : Int) : ∀ b ∈ intBytes i, (b != 101) = true := by
  intro b hb
  simp only [intBytes] at hb
  split at hb
  · rcases List.mem_cons.mp hb with rfl | hb
    · decide
    · have := toDec_digits _ b hb
      simp
      omega
  · have := toDec_digits _ b hb
    simp
    omega

theorem toDec_ne_colon (n : Nat) : ∀ b ∈ toDec n, (b != 58) = true := by
  intro b hb
  have := toDec_digits n b hb
  simp
  omega

/-! ### takeWhile and dropWhile over a clean prefix plus marker -/

theorem takeWhile_marker {p : Nat → Bool} :
    ∀ (a : List Nat) (c : Nat) (b : List Nat), (∀ x ∈ a, p x = true) → p c = false →
      (a ++ c :: b).takeWhile p = a ∧ (a ++ c :: b).dropWhile p = c :: b := by
  intro a
  induction a with
  | nil =>
    intro c b _ hc
    simp [List.takeWhile_cons, List.dropWhile_cons, hc]
  | cons x a ih =>
    intro c b ha hc
    have hx : p x = true := ha x (by simp)
    have hr := ih c b (fun y hy => ha y (by simp [hy])) hc
    simp [List.takeWhile_cons, List.dropWhile_cons, hx, hr.1, hr.2]

/-! ### One-constructor decode lemmas for the spec codec -/

theorem decodeStr_enc (bs rest : List Nat) :
    decodeStr (encStr bs ++ rest) = .ok (.str bs, rest) := by
  have hsplit : encStr bs ++ rest = toDec bs.length ++ 58 :: (bs ++ rest) := by
    simp [encStr]
  have htw := takeWhile_marker (p := fun b => b != 58) (toDec bs.length) 58 (bs ++ rest)
    (toDec_ne_colon bs.length) (by simp)
  rw [hsplit]
  simp only [decodeStr, htw.1, htw.2, lengthTextValid_toDec, parseNat_toDec, if_true]
  rw [if_neg (by simp)]
  rw [List.take_left, List.drop_left]

theorem decodeInt_enc (i : Int) (rest : List Nat) :
    decodeInt (intBytes i ++ 101 :: rest) = .ok (.int i, rest) := by
  have htw := takeWhile_marker (p := fun b => b != 101) (intBytes i) 101 rest
    (intBytes_ne_e i) (by simp)
  simp only [decodeInt, htw.1, htw.2, intBytes_valid, intVal_intBytes, if_true]

/-! ### Well-formedness of decoded values

A decoded value has all dictionaries in strictly ascending key order (the
canonical representative built by the decoder model). -/

inductive WFval : Value → Prop where
  | str (b : List Nat) : WFval (.str b)
  | int (i : Int) : WFval (.int i)
  | list (l : List Value) : (∀ v ∈ l, WFval v) → WFval (.list l)
  | dict (d : List (List Nat × Value)) :
      d.Pairwise (fun p q => p.1 < q.1) → (∀ p ∈ d, WFval p.2) → WFval (.dict d)

theorem decodeStr_shape (s : List Nat) (v : Value) (r : List Nat)
    (h : decodeStr s = .ok (v, r)) : ∃ b, v = .str b := by
  simp only [decodeStr] at h
  split at h
  · exact absurd h (by simp)
  · split at h
    · split at h
      · exact absurd h (by simp)
      · simp only [Except.ok.injEq, Prod.mk.injEq] at h
        exact ⟨_, h.1.symm⟩
    · exact absurd h (by simp)

theorem decodeInt_shape (s : List Nat) (v : Value) (r : List Nat)
    (h : decodeInt s = .ok (v, r)) : ∃ i, v = .int i := by
  simp only [decodeInt] at h
  split at h
  · exact absurd h (by simp)
  · split at h
    · simp only [Except.ok.injEq, Prod.mk.injEq] at h
      exact ⟨_, h.1.symm⟩
    · exact absurd h (by simp)

theorem insertPair_mem :
    ∀ (p : List Nat × Value) (d d' : List (List Nat × Value)),
      insertPair p d = .ok d' → ∀ q ∈ d', q = p ∨ q ∈ d := by
  intro p d
  induction d with
  | nil =>
    intro d' h q hq
    simp only [insertPair, Except.ok.injEq] at h
    subst h
    simp at hq
    exact Or.inl hq
  | cons a t ih =>
    intro d' h q hq
    simp only [insertPair] at h
    split at h
    · exact absurd h (by simp)
    · split at h
      · simp only [Except.ok.injEq] at h
        subst h
        rcases List.mem_cons.mp hq with rfl | hq2
        · exact Or.inl rfl
        · exact Or.inr hq2
      · split at h
        · exact absurd h (by simp)
        · rename_i l hl
          simp only [Except.ok.injEq] at h
          subst h
          rcases List.mem_cons.mp hq with rfl | hq2
          · exact Or.inr (by simp)
          · rcases ih l hl q hq2 with h1 | h1
            · exact Or.inl h1
            · exact Or.inr (by simp [h1])

theorem insertPair_pairwise :
    ∀ (p : List Nat × Value) (d d' : List (List Nat × Value)),
      d.Pairwise (fun a b => a.1 < b.1) → insertPair p d = .ok d' →
      d'.Pairwise (fun a b => a.1 < b.1) := by
  intro p d
  induction d with
  | nil =>
    intro d' _ h
    simp only [insertPair, Except.ok.injEq] at h
    subst h
    simp
  | cons a t ih =>
    intro d' hp h
    rw [List.pairwise_cons] at hp
    obtain ⟨ha, ht⟩ := hp
    by_cases he : p.1 = a.1
    · simp only [insertPair, if_pos he] at h
      exact absurd h (by simp)
    · by_cases hlt : p.1 < a.1
      · simp only [insertPair, if_neg he, if_pos hlt, Except.ok.injEq] at h
        subst h
        rw [List.pairwise_cons]
        refine ⟨?_, List.pairwise_cons.mpr ⟨ha, ht⟩⟩
        intro b hb
        rcases List.mem_cons.mp hb with rfl | hb2
        · exact hlt
        · exact lt_trans hlt (ha b hb2)
      · have hgt : a.1 < p.1 := by
          rcases lt_trichotomy p.1 a.1 with h1 | h1 | h1
          · exact absurd h1 hlt
          · exact absurd h1 he
          · exact h1
        simp only [insertPair, if_neg he, if_neg hlt] at h
        cases hl : insertPair p t with
        | error e => rw [hl] at h; simp at h
        | ok l =>
          rw [hl] at h
          simp only [Except.ok.injEq] at h
          subst h
          rw [List.pairwise_cons]
          refine ⟨?_, ih l ht hl⟩
          intro b hb
          rcases insertPair_mem p t l hl b hb with rfl | hb2
          · exact hgt
          · exact ha b hb2

theorem decode_wf : ∀ (fuel : Nat),
    (∀ s v r, decodeValue fuel s = some (.ok (v, r)) → WFval v) ∧
    (∀ s l r, decodeListAux fuel s = some (.ok (l, r)) → ∀ v ∈ l, WFval v) ∧
    (∀ s d r, decodeDictAux fuel s = some (.ok (d, r)) →
      d.Pairwise (fun p q => p.1 < q.1) ∧ ∀ p ∈ d, WFval p.2) := by
  intro fuel
  induction fuel with
  | zero =>
    refine ⟨?_, ?_, ?_⟩
    · intro s v r h
      simp [decodeValue] at h
    · intro s l r h
      simp [decodeListAux] at h
    · intro s d r h
      simp [decodeDictAux] at h
  | succ f ih =>
    obtain ⟨ihv, ihl, ihd⟩ := ih
    refine ⟨?_, ?_, ?_⟩
    · intro s v r h
      cases s with
      | nil => simp [decodeValue] at h
      | cons c rest =>
        simp only [decodeValue] at h
        split at h
        · simp only [Option.some.injEq] at h
          obtain ⟨b, rfl⟩ := decodeStr_shape _ _ _ h
          exact WFval.str b
        · split at h
          · simp only [Option.some.injEq] at h
            obtain ⟨i, rfl⟩ := decodeInt_shape _ _ _ h
            exact WFval.int i
          · split at h
            · cases hlist : decodeListAux f rest with
              | none => rw [hlist] at h; simp at h
              | some res =>
                rw [hlist] at h
                cases res with
                | error e => simp at h
                | ok pr =>
                  obtain ⟨l, r'⟩ := pr
                  simp only [Option.some.injEq, Except.ok.injEq, Prod.mk.injEq] at h
                  obtain ⟨hv, hr⟩ := h
                  subst hv
                  exact WFval.list l (ihl rest l r' hlist)
            · split at h
              · cases hdict : decodeDictAux f rest with
                | none => rw [hdict] at h; simp at h
                | some res =>
                  rw [hdict] at h
                  cases res with
                  | error e => simp at h
                  | ok pr =>
                    obtain ⟨d, r'⟩ := pr
                    simp only [Option.some.injEq, Except.ok.injEq, Prod.mk.injEq] at h
                    obtain ⟨hv, hr⟩ := h
                    subst hv
                    exact WFval.dict d (ihd rest d r' hdict).1 (ihd rest d r' hdict).2
              · simp at h
    · intro s l r h
      cases s with
      | nil => simp [decodeListAux] at h
      | cons c rest =>
        simp only [decodeListAux] at h
        split at h
        · simp only [Option.some.injEq, Except.ok.injEq, Prod.mk.injEq] at h
          obtain ⟨hl, hr⟩ := h
          subst hl
          simp
        · cases hval : decodeValue f (c :: rest) with
          | none => rw [hval] at h; simp at h
          | some res =>
            rw [hval] at h
            cases res with
            | error e => simp at h
            | ok pr =>
              obtain ⟨v1, r1⟩ := pr
              simp only at h
              cases hrest : decodeListAux f r1 with
              | none => rw [hrest] at h; simp at h
              | some res2 =>
                rw [hrest] at h
                cases res2 with
                | error e => simp at h
                | ok pr2 =>
                  obtain ⟨l1, r2⟩ := pr2
                  simp only [Option.some.injEq, Except.ok.injEq, Prod.mk.injEq] at h
                  obtain ⟨hl, hr⟩ := h
                  subst hl
                  intro v hv
                  rcases List.mem_cons.mp hv with rfl | hv2
                  · exact ihv (c :: rest) v r1 hval
                  · exact ihl r1 l1 r2 hrest v hv2
    · intro s d r h
      cases s with
      | nil => simp [decodeDictAux] at h
      | cons c rest =>
        simp only [decodeDictAux] at h
        split at h
        · simp only [Option.some.injEq, Except.ok.injEq, Prod.mk.injEq] at h
          obtain ⟨hd, hr⟩ := h
          subst hd
          simp
        · cases hval : decodeValue f (c :: rest) with
          | none => rw [hval] at h; simp at h
          | some res =>
            rw [hval] at h
            cases res with
            | error e => simp at h
            | ok pr =>
              obtain ⟨vk, r1⟩ := pr
              cases vk with
              | str k =>
                simp only at h
                cases hh : r1.head? with
                | none => rw [hh] at h; simp at h
                | some c2 =>
                  rw [hh] at h
                  simp only at h
                  split at h
                  · simp at h
                  · cases hval2 : decodeValue f r1 with
                    | none => rw [hval2] at h; simp at h
                    | some res2 =>
                      rw [hval2] at h
                      cases res2 with
                      | error e => simp at h
                      | ok pr2 =>
                        obtain ⟨v1, r3⟩ := pr2
                        simp only at h
                        cases hdict : decodeDictAux f r3 with
                        | none => rw [hdict] at h; simp at h
                        | some res3 =>
                          rw [hdict] at h
                          cases res3 with
                          | error e => simp at h
                          | ok pr3 =>
                            obtain ⟨entries, r4⟩ := pr3
                            simp only at h
                            cases hins : insertPair (k, v1) entries with
                            | error e => rw [hins] at h; simp at h
                            | ok entries2 =>
                              rw [hins] at h
                              simp only [Option.some.injEq, Except.ok.injEq,
                                Prod.mk.injEq] at h
                              obtain ⟨hd, hr⟩ := h
                              subst hd
                              have hwf := ihd r3 entries r4 hdict
                              constructor
                              · exact insertPair_pairwise _ _ _ hwf.1 hins
                              · intro q hq
                                rcases insertPair_mem _ _ _ hins q hq with rfl | hq2
                                · exact ihv r1 v1 r3 hval2
                                · exact hwf.2 q hq2
              | int i => simp at h
              | list l => simp at h
              | dict dd => simp at h

/-! ### The round-trip law -/

theorem sortPairs_of_sorted :
    ∀ d : List (List Nat × Value), d.Pairwise (fun p q => p.1 < q.1) →
      sortPairs d = d := by
  intro d
  induction d with
  | nil => intro _; rfl
  | cons p t ih =>
    intro h
    rw [List.pairwise_cons] at h
    obtain ⟨hp, ht⟩ := h
    have hstep : sortPairs (p :: t) = insSorted p (sortPairs t) := rfl
    rw [hstep, ih ht]
    cases t with
    | nil => rfl
    | cons q qs =>
      have hpq : p.1 < q.1 := hp q (by simp)
      simp [insSorted, hpq]

theorem encodeValue_head (v : Value) : ∃ c cs, encodeValue v = c :: cs ∧
    (isDigit c = true ∨ c = 105 ∨ c = 108 ∨ c = 100) := by
  cases v with
  | str b =>
    obtain ⟨d, t, hdt, hdig⟩ := toDec_cons b.length
    refine ⟨d, t ++ 58 :: b, ?_, Or.inl hdig⟩
    simp [encodeValue, encStr, hdt]
  | int i =>
    refine ⟨105, intBytes i ++ [101], ?_, Or.inr (Or.inl rfl)⟩
    simp [encodeValue]
  | list l =>
    refine ⟨108, encodeList l ++ [101], ?_, Or.inr (Or.inr (Or.inl rfl))⟩
    simp [encodeValue]
  | dict d =>
    refine ⟨100, encodeEntries (sortPairs d) ++ [101], ?_, Or.inr (Or.inr (Or.inr rfl))⟩
    simp [encodeValue]

theorem encodeValue_length_pos (v : Value) : 0 < (encodeValue v).length := by
  obtain ⟨c, cs, hvc, _⟩ := encodeValue_head v
  rw [hvc]
  simp

theorem encodeValue_head_ne_e (c : Nat)
    (h : isDigit c = true ∨ c = 105 ∨ c = 108 ∨ c = 100) : c ≠ 101 := by
  rcases h with h | h | h | h
  · simp [isDigit] at h
    omega
  · omega
  · omega
  · omega

theorem insertPair_head (p : List Nat × Value) (es : List (List Nat × Value))
    (h : ∀ q ∈ es, p.1 < q.1) : insertPair p es = .ok (p :: es) := by
  cases es with
  | nil => rfl
  | cons q qs =>
    have hlt := h q (by simp)
    have hne : p.1 ≠ q.1 := ne_of_lt hlt
    simp [insertPair, hne, hlt]

theorem value_sizeOf_pos (v : Value) : 1 ≤ sizeOf v := by
  cases v <;> simp <;> omega

theorem pairlist_sizeOf_pos (l : List (List Nat × Value)) : 1 ≤ sizeOf l := by
  cases l with
  | nil => simp
  | cons q qs => simp; omega

theorem vallist_sizeOf_pos (l : List Value) : 1 ≤ sizeOf l := by
  cases l with
  | nil => simp
  | cons q qs =>
    simp
    have := value_sizeOf_pos q
    omega

theorem rt_all : ∀ n : Nat,
    (∀ v : Value, sizeOf v ≤ n → WFval v → ∀ (fuel : Nat) (rest : List Nat),
      2 * (encodeValue v).length + 1 ≤ fuel →
      decodeValue fuel (encodeValue v ++ rest) = some (.ok (v, rest))) ∧
    (∀ l : List Value, sizeOf l ≤ n → (∀ x ∈ l, WFval x) →
      ∀ (fuel : Nat) (rest : List Nat),
      2 * (encodeList l).length + 2 ≤ fuel →
      decodeListAux fuel (encodeList l ++ 101 :: rest) = some (.ok (l, rest))) ∧
    (∀ d : List (List Nat × Value), sizeOf d ≤ n → (∀ p ∈ d, WFval p.2) →
      d.Pairwise (fun p q => p.1 < q.1) → ∀ (fuel : Nat) (rest : List Nat),
      2 * (encodeEntries d).length + 2 ≤ fuel →
      decodeDictAux fuel (encodeEntries d ++ 101 :: rest) = some (.ok (d, rest))) := by
  intro n
  induction n using Nat.strong_induction_on with
  | _ n ih =>
    refine ⟨?_, ?_, ?_⟩
    · intro v hsz hwf fuel rest hfuel
      obtain ⟨f, rfl⟩ : ∃ f, fuel = f + 1 := ⟨fuel - 1, by omega⟩
      cases v with
      | str b =>
        obtain ⟨d, t, hdt, hdig⟩ := toDec_cons b.length
        have henc : encodeValue (.str b) = encStr b := by simp [encodeValue]
        have hcons : encStr b ++ rest = d :: (t ++ 58 :: (b ++ rest)) := by
          simp [encStr, hdt]
        rw [henc, hcons]
        simp only [decodeValue, hdig, if_true]
        rw [← hcons, decodeStr_enc]
      | int i =>
        have henc : encodeValue (.int i) = 105 :: intBytes i ++ [101] := by
          simp [encodeValue]
        have hcons : (105 :: intBytes i ++ [101]) ++ rest =
            105 :: (intBytes i ++ 101 :: rest) := by simp
        rw [henc, hcons]
        simp [decodeValue, decodeInt_enc, isDigit]
      | list l =>
        have hwfl : ∀ x ∈ l, WFval x := by cases hwf with | list _ h => exact h
        have henc : encodeValue (.list l) = 108 :: encodeList l ++ [101] := by
          simp [encodeValue]
        have hlen : (encodeValue (.list l)).length = (encodeList l).length + 2 := by
          rw [henc]
          simp
        have hszl : sizeOf l < n := by
          have hs1 : sizeOf (Value.list l) = 1 + sizeOf l := by simp
          omega
        have hrec := (ih (sizeOf l) hszl).2.1 l le_rfl hwfl f rest (by omega)
        have hcons : (108 :: encodeList l ++ [101]) ++ rest =
            108 :: (encodeList l ++ 101 :: rest) := by simp
        rw [henc, hcons]
        simp [decodeValue, hrec, isDigit]
      | dict d =>
        obtain ⟨hs, hm⟩ : d.Pairwise (fun p q => p.1 < q.1) ∧ ∀ p ∈ d, WFval p.2 := by
          cases hwf with | dict _ h1 h2 => exact ⟨h1, h2⟩
        have henc : encodeValue (.dict d) = 100 :: encodeEntries d ++ [101] := by
          simp [encodeValue, sortPairs_of_sorted d hs]
        have hlen : (encodeValue (.dict d)).length = (encodeEntries d).length + 2 := by
          rw [henc]
          simp
        have hszd : sizeOf d < n := by
          have hs1 : sizeOf (Value.dict d) = 1 + sizeOf d := by simp
          omega
        have hrec := (ih (sizeOf d) hszd).2.2 d le_rfl hm hs f rest (by omega)
        have hcons : (100 :: encodeEntries d ++ [101]) ++ rest =
            100 :: (encodeEntries d ++ 101 :: rest) := by simp
        rw [henc, hcons]
        simp [decodeValue, hrec, isDigit]
    · intro l hsz hwf fuel rest hfuel
      obtain ⟨f, rfl⟩ : ∃ f, fuel = f + 1 := ⟨fuel - 1, by omega⟩
      cases l with
      | nil =>
        have henc : encodeList ([] : List Value) = [] := by simp [encodeList]
        rw [henc]
        simp [decodeListAux]
      | cons v t =>
        obtain ⟨c, cs, hvc, hctag⟩ := encodeValue_head v
        have hcne : c ≠ 101 := encodeValue_head_ne_e c hctag
        have hlen : (encodeList (v :: t)).length =
            (encodeValue v).length + (encodeList t).length := by
          simp [encodeList]
        have hvpos : 0 < (encodeValue v).length := encodeValue_length_pos v
        have hszc : sizeOf (v :: t) = 1 + sizeOf v + sizeOf t := by simp
        have htpos := vallist_sizeOf_pos t
        have hvspos := value_sizeOf_pos v
        have hszv : sizeOf v < n := by omega
        have hszt : sizeOf t < n := by omega
        have hrecv := (ih (sizeOf v) hszv).1 v le_rfl (hwf v (by simp)) f
          (encodeList t ++ 101 :: rest) (by omega)
        have hrect := (ih (sizeOf t) hszt).2.1 t le_rfl
          (fun x hx => hwf x (by simp [hx])) f rest (by omega)
        have hsplit : encodeList (v :: t) ++ 101 :: rest =
            c :: (cs ++ (encodeList t ++ 101 :: rest)) := by
          simp [encodeList, hvc]
        rw [hsplit]
        simp only [decodeListAux, if_neg hcne]
        rw [show c :: (cs ++ (encodeList t ++ 101 :: rest)) =
            encodeValue v ++ (encodeList t ++ 101 :: rest) from by rw [hvc]; simp]
        rw [hrecv]
        simp only
        rw [hrect]
    · intro d hsz hwf hs fuel rest hfuel
      obtain ⟨f, rfl⟩ : ∃ f, fuel = f + 1 := ⟨fuel - 1, by omega⟩
      cases d with
      | nil =>
        have henc : encodeEntries ([] : List (List Nat × Value)) = [] := by
          simp [encodeEntries]
        rw [henc]
        simp [decodeDictAux]
      | cons p t =>
        obtain ⟨k, v⟩ := p
        obtain ⟨dk, tk, hdt, hdig⟩ := toDec_cons k.length
        have hkne : dk ≠ 101 := encodeValue_head_ne_e dk (Or.inl hdig)
        obtain ⟨c2, cs2, hvc2, hctag2⟩ := encodeValue_head v
        have hc2ne : c2 ≠ 101 := encodeValue_head_ne_e c2 hctag2
        have hlen : (encodeEntries ((k, v) :: t)).length =
            (encStr k).length + ((encodeValue v).length + (encodeEntries t).length) := by
          simp [encodeEntries]
        have hkpos : 0 < (encStr k).length := by simp [encStr]
        have hvpos : 0 < (encodeValue v).length := encodeValue_length_pos v
        have hstrlen : (encodeValue (.str k)).length = (encStr k).length := by
          simp [encodeValue]
        have hszc : sizeOf ((k, v) :: t) = 1 + (1 + sizeOf k + sizeOf v) + sizeOf t := by
          simp
        have htpos := pairlist_sizeOf_pos t
        have hvspos := value_sizeOf_pos v
        have hszk : sizeOf (Value.str k) < n := by
          have hs1 : sizeOf (Value.str k) = 1 + sizeOf k := by simp
          omega
        have hszv : sizeOf v < n := by omega
        have hszt : sizeOf t < n := by omega
        have hreck := (ih _ hszk).1 (.str k) le_rfl (WFval.str k) f
          (encodeValue v ++ (encodeEntries t ++ 101 :: rest)) (by omega)
        have hrecv := (ih _ hszv).1 v le_rfl (hwf (k, v) (by simp)) f
          (encodeEntries t ++ 101 :: rest) (by omega)
        have hrect := (ih _ hszt).2.2 t le_rfl (fun q hq => hwf q (by simp [hq]))
          (List.pairwise_cons.mp hs).2 f rest (by omega)
        have hins : insertPair (k, v) t = .ok ((k, v) :: t) :=
          insertPair_head (k, v) t (List.pairwise_cons.mp hs).1
        have hsplit : encodeEntries ((k, v) :: t) ++ 101 :: rest =
            dk :: (tk ++ 58 :: (k ++ (encodeValue v ++ (encodeEntries t ++ 101 :: rest)))) := by
          simp [encodeEntries, encStr, hdt]
        have hstr : encodeValue (.str k) ++ (encodeValue v ++ (encodeEntries t ++ 101 :: rest)) =
            dk :: (tk ++ 58 :: (k ++ (encodeValue v ++ (encodeEntries t ++ 101 :: rest)))) := by
          rw [show encodeValue (.str k) = encStr k from by simp [encodeValue]]
          simp [encStr, hdt]
        rw [hsplit]
        simp only [decodeDictAux, if_neg hkne]
        rw [← hstr, hreck]
        simp only
        rw [show (encodeValue v ++ (encodeEntries t ++ 101 :: rest)).head? = some c2 from by
          rw [hvc2]; simp]
        simp only [if_neg hc2ne]
        rw [hrecv]
        simp only
        rw [hrect]
        simp only
        rw [hins]

theorem rt_val (v : Value) (hwf : WFval v) (fuel : Nat) (rest : List Nat)
    (hfuel : 2 * (encodeValue v).length + 1 ≤ fuel) :
    decodeValue fuel (encodeValue v ++ rest) = some (.ok (v, rest)) :=
  (rt_all (sizeOf v)).1 v le_rfl hwf fuel rest hfuel

theorem decode_encode (v : Value) (h : WFval v) : decode (encodeValue v) = .ok v := by
  have hrt := rt_val v h (2 * (encodeValue v).length + 1) [] le_rfl
  rw [List.append_nil] at hrt
  simp [decode, hrt]

/-- C4 round-trip law: for every Value produced by a whole-buffer decode,
decoding the canonical encoding of that value yields the value again. -/
theorem claim_C4 (s : List Nat) (v : Value) (h : decode s = .ok v) :
    decode (encodeValue v) = .ok v := by
  apply decode_encode
  simp only [decode] at h
  cases hd : decodeValue (2 * s.length + 1) s with
  | none => rw [hd] at h; simp at h
  | some res =>
    rw [hd] at h
    cases res with
    | error e => simp at h
    | ok pr =>
      obtain ⟨v', r⟩ := pr
      simp only at h
      split at h
      · simp only [Except.ok.injEq] at h
        subst h
        exact (decode_wf _).1 s v' r hd
      · simp at h

/-- C4 witness: the round trip applied to the spec's dictionary vector. -/
theorem claim_C4_witness :
    decode (asciiB "d3:cow3:moo4:spam4:eggse") =
      .ok (.dict [(asciiB "cow", .str (asciiB "moo")),
                  (asciiB "spam", .str (asciiB "eggs"))]) ∧
    decode (encodeValue (.dict [(asciiB "cow", .str (asciiB "moo")),
                                (asciiB "spam", .str (asciiB "eggs"))])) =
      .ok (.dict [(asciiB "cow", .str (asciiB "moo")),
                  (asciiB "spam", .str (asciiB "eggs"))]) :=
  ⟨rfl, claim_C4 (asciiB "d3:cow3:moo4:spam4:eggse") _ rfl⟩

/-- C6: the info-hash is a function of the canonical re-encoding of the
info sub-structure only: for any two torrent files that both parse, if the
canonical encodings of their extracted info records agree (in particular
when the files differ only in the announce value, in extraneous content,
or in the byte order of the info keys) then the digests agree, and the
digest always has exactly 20 bytes. -/
theorem claim_C6 (f1 f2 : List Nat) (m1 m2 : TorrentMetadata)
    (h1 : parseTorrent f1 = .ok m1) (h2 : parseTorrent f2 = .ok m2)
    (henc : encodeValue (infoToValue m1.info) = encodeValue (infoToValue m2.info)) :
    compute_info_hash m1.info = compute_info_hash m2.info ∧
    (compute_info_hash m1.info).length = 20 := by
  constructor
  · simp only [compute_info_hash, henc]
  · exact sha1_length _

/-- C6 witness: two concrete torrent files with different announce values,
different byte order of the info keys, and one with an extra top-level
key, parse to metadata with the same info record and hence the same
20-byte digest. -/
theorem claim_C6_witness :
    parseTorrent (asciiB "d8:announce2:t14:infod6:lengthi3e4:name3:abc12:piece lengthi2e6:pieces20:aaaaaaaaaaaaaaaaaaaaee") =
      .ok ⟨asciiB "t1", ⟨asciiB "abc", asciiB "aaaaaaaaaaaaaaaaaaaa", 2, some 3⟩⟩ ∧
    parseTorrent (asciiB "d8:announce2:t24:infod6:pieces20:aaaaaaaaaaaaaaaaaaaa4:name3:abc12:piece lengthi2e6:lengthi3ee7:comment3:xyze") =
      .ok ⟨asciiB "t2", ⟨asciiB "abc", asciiB "aaaaaaaaaaaaaaaaaaaa", 2, some 3⟩⟩ ∧
    compute_info_hash ⟨asciiB "abc", asciiB "aaaaaaaaaaaaaaaaaaaa", 2, some 3⟩ =
      compute_info_hash ⟨asciiB "abc", asciiB "aaaaaaaaaaaaaaaaaaaa", 2, some 3⟩ ∧
    (compute_info_hash ⟨asciiB "abc", asciiB "aaaaaaaaaaaaaaaaaaaa", 2, some 3⟩).length = 20 :=
  ⟨rfl, rfl,
   claim_C6
     (asciiB "d8:announce2:t14:infod6:lengthi3e4:name3:abc12:piece lengthi2e6:pieces20:aaaaaaaaaaaaaaaaaaaaee")
     (asciiB "d8:announce2:t24:infod6:pieces20:aaaaaaaaaaaaaaaaaaaa4:name3:abc12:piece lengthi2e6:lengthi3ee7:comment3:xyze")
     ⟨asciiB "t1", ⟨asciiB "abc", asciiB "aaaaaaaaaaaaaaaaaaaa", 2, some 3⟩⟩
     ⟨asciiB "t2", ⟨asciiB "abc", asciiB "aaaaaaaaaaaaaaaaaaaa", 2, some 3⟩⟩
     rfl rfl rfl⟩

end BT

